import Mathlib

/-!
Verification development for the retrieval (RAG) service of the
`agentic-ai-rag-benchmark` repository.

Shallow embedding of the core components:
* `Retriever` (src/rag_service/retriever.py): the FAISS-backed vector index
  with parallel `doc_ids` / `metadata` stores, its `add_documents`,
  `add_texts`, `search`, `save_index` / `load_index` operations.
* `chunk_text` (src/rag_service/ingest.py): sentence/space-aware overlapping
  text chunking.
* the `/query` endpoint (src/rag_service/app/api.py).
* the Wikipedia ingestion path (src/rag_service/ingest.py).

Python dictionaries are modelled as association lists, numpy float vectors as
lists of rationals (exact arithmetic in place of IEEE floats), the FAISS
`IndexFlatL2` as the list of stored vectors in insertion order with exact
squared-L2 nearest-neighbour search, and fallible operations as `Option`.
External collaborators (embedding model, wikipedia client) are parameters.
-/

/-- A Python scalar value stored in a metadata dictionary. -/
inductive MVal where
  | str : String → MVal
  | num : Nat → MVal
deriving DecidableEq

/-- A Python dict with string keys, modelled as an association list. -/
abbrev Meta := List (String × MVal)

/-- Dict write `m[k] = v` (overwrites any previous binding of `k`). -/
def dictSet (m : Meta) (k : String) (v : MVal) : Meta :=
  m.filter (fun p => p.1 != k) ++ [(k, v)]

/-- Dict read `m.get(k)`. -/
def dictGet (m : Meta) (k : String) : Option MVal :=
  (m.find? (fun p => p.1 == k)).map Prod.snd

/-- Dict removal `m.pop(k, default)` applied to a fresh copy: returns the
dictionary without the key. -/
def dictPop (m : Meta) (k : String) : Meta :=
  m.filter (fun p => p.1 != k)

/-- An embedding vector (one row of the numpy matrix returned by
`embed_text`). -/
abbrev Vec := List ℚ

/-- Squared L2 distance, as computed by `faiss.IndexFlatL2`. -/
def sqDist (u v : Vec) : ℚ :=
  ((u.zip v).map (fun p => (p.1 - p.2) ^ 2)).sum

/-- In-memory state of a `Retriever` instance (retriever.py): the FAISS
structure's stored vectors in insertion order, and the two parallel Python
lists `doc_ids` and `metadata`. -/
structure RState where
  index : List Vec
  doc_ids : List String
  metadata : List Meta
deriving DecidableEq

/-- A freshly constructed `Retriever` with no companion files on disk:
`faiss.IndexFlatL2(dim)` plus empty `doc_ids` / `metadata`. -/
def initState : RState := ⟨[], [], []⟩

/-- A processed document as consumed by `Retriever.add_documents`
(`{'id', 'chunks', 'metadata'}`). -/
structure Doc where
  id : String
  chunks : List String
  metadata : Meta

/-- The per-chunk metadata built inside `add_documents`:
`doc_metadata.copy()` then the four key assignments. -/
def chunkMeta (dm : Meta) (docId : String) (i : Nat) (c : String) (now : Nat) : Meta :=
  dictSet (dictSet (dictSet (dictSet dm "doc_id" (MVal.str docId))
    "chunk_index" (MVal.num i)) "chunk_text" (MVal.str c)) "added_at" (MVal.num now)

/-- One iteration of the `for doc in documents` loop of
`Retriever.add_documents`: documents with an empty chunk list are skipped;
otherwise the chunk embeddings are appended to the FAISS structure and one
`chunk_id` / metadata pair per chunk is appended to the parallel lists
(`chunk_id = f"{doc_id}_{i}"`). -/
def addOneDocument (embed : String → Vec) (now : Nat) (s : RState) (doc : Doc) : RState :=
  if doc.chunks = [] then s
  else
    { index := s.index ++ doc.chunks.map embed
      doc_ids := s.doc_ids ++
        (List.range doc.chunks.length).map (fun i => doc.id ++ "_" ++ toString i)
      metadata := s.metadata ++
        doc.chunks.enum.map (fun p => chunkMeta doc.metadata doc.id p.1 p.2 now) }

/-- `Retriever.add_documents(documents)`: returns the number of chunks added
and the updated state.  (The trailing `save_index()` call does not change the
in-memory state.) -/
def add_documents (embed : String → Vec) (now : Nat) (docs : List Doc) (s : RState) :
    Nat × RState :=
  if docs.isEmpty then (0, s)
  else docs.foldl
    (fun acc d =>
      (acc.1 + (if d.chunks = [] then 0 else d.chunks.length),
       addOneDocument embed now acc.2 d))
    (0, s)

/-- The per-text metadata built inside `add_texts`: `metadata.copy()` then the
two key assignments. -/
def textMeta (m : Meta) (t : String) (now : Nat) : Meta :=
  dictSet (dictSet m "chunk_text" (MVal.str t)) "added_at" (MVal.num now)

/-- `Retriever.add_texts(texts, metadatas)`: embeds and appends a vector for
every text, but appends ids/metadata only for the pairs produced by
`zip(texts, metadatas)` (which stops at the shorter list, exactly like
Python's `zip`). Returns the generated chunk ids and the updated state. -/
def add_texts (embed : String → Vec) (now : Nat) (texts : List String)
    (metadatas : Option (List Meta)) (s : RState) : List String × RState :=
  if texts = [] then ([], s)
  else
    let metas := metadatas.getD (texts.map (fun _ => ([] : Meta)))
    let pairs := (texts.zip metas).enum
    let ids := pairs.map (fun p => "text_" ++ toString now ++ "_" ++ toString p.1)
    (ids,
     { index := s.index ++ texts.map embed
       doc_ids := s.doc_ids ++ ids
       metadata := s.metadata ++ pairs.map (fun p => textMeta p.2.2 p.2.1 now) })

/-- A single result dictionary returned by `Retriever.search`. -/
structure SearchResult where
  chunk_id : String
  text : MVal
  metadata : Meta
  score : ℚ
deriving DecidableEq

/-- The comparison used by FAISS to order search hits: ascending distance,
ties broken by ascending (insertion-order) index. -/
def lexLe (a b : ℚ × Int) : Bool :=
  decide (a.1 < b.1) || (decide (a.1 = b.1) && decide (a.2 ≤ b.2))

/-- Insert an element into a list sorted by `le`. -/
def insertLe (le : α → α → Bool) (a : α) : List α → List α
  | [] => [a]
  | b :: bs => if le a b then a :: b :: bs else b :: insertLe le a bs

/-- Insertion sort by `le`. -/
def isort (le : α → α → Bool) (l : List α) : List α :=
  l.foldr (insertLe le) []

/-- `faiss.IndexFlatL2.search(query, k)` restricted to one query row: returns
`k` `(distance, index)` pairs — the stored vectors ordered by ascending
squared-L2 distance (ties by ascending index), truncated to `k`, padded with
the sentinel index `-1` when fewer than `k` vectors are stored. -/
def faissSearch (vecs : List Vec) (q : Vec) (k : Nat) : List (ℚ × Int) :=
  let scored := vecs.enum.map (fun p => (sqDist q p.2, (p.1 : Int)))
  let sorted := isort lexLe scored
  let top := sorted.take k
  top ++ List.replicate (k - top.length) ((0 : ℚ), (-1 : Int))

/-- The result-construction loop of `Retriever.search`: positions flagged
`-1` are skipped; for a real position the stored metadata entry is copied,
`chunk_text` is popped from the copy into the result's `text` field, and the
similarity score is `1 / (1 + distance)`.  An out-of-range position would
raise `IndexError` in Python, modelled as `none`. -/
def searchHits (s : RState) : List (ℚ × Int) → Option (List SearchResult)
  | [] => some []
  | (d, idx) :: rest =>
    if idx = -1 then searchHits s rest
    else
      match s.metadata.get? idx.toNat, s.doc_ids.get? idx.toNat with
      | some m, some cid =>
        (searchHits s rest).map (fun rs =>
          { chunk_id := cid
            text := (dictGet m "chunk_text").getD (MVal.str "")
            metadata := dictPop m "chunk_text"
            score := 1 / (1 + d) } :: rs)
      | _, _ => none

/-- `Retriever.search(query, top_k)`: returns `some results` (or `none` for a
raised exception) together with the retriever state after the call.  An empty
index short-circuits to an empty result list; otherwise `top_k` is clamped to
`len(doc_ids)` before the FAISS search. -/
def search (embed : String → Vec) (s : RState) (q : String) (top_k : Nat) :
    Option (List SearchResult) × RState :=
  if s.doc_ids = [] then (some [], s)
  else
    let qv := embed q
    let k := min top_k s.doc_ids.length
    (searchHits s (faissSearch s.index qv k), s)

/-- The FAISS index file written by `faiss.write_index`. -/
structure SavedIndex where
  vecs : List Vec
deriving DecidableEq

/-- The companion JSON metadata file written by `Retriever.save_index`. -/
structure SavedMeta where
  name : String
  model_info : String
  doc_ids : List String
  metadata : List Meta
  updated_at : Nat
deriving DecidableEq

/-- `Retriever.save_index()`: serializes the FAISS structure and the
`{name, embedding_model, doc_ids, metadata, updated_at}` record to the two
companion files. -/
def save_index (name model_info : String) (now : Nat) (s : RState) :
    SavedIndex × SavedMeta :=
  (⟨s.index⟩, ⟨name, model_info, s.doc_ids, s.metadata, now⟩)

/-- `Retriever.load_index()` on well-formed companion files: restores the
FAISS structure and the `doc_ids` / `metadata` lists. -/
def load_index (f : SavedIndex × SavedMeta) : RState :=
  ⟨f.1.vecs, f.2.doc_ids, f.2.metadata⟩

/-- `Retriever.__init__` for a fresh instance: if both companion files for
the index name exist they are loaded, otherwise a new empty index is
created. -/
def freshRetriever (files : Option (SavedIndex × SavedMeta)) : RState :=
  match files with
  | some f => load_index f
  | none => initState

/-- One mutating call on a `Retriever` (the arguments of one `add_documents`
or `add_texts` invocation, with the wall-clock time observed during it). -/
inductive RCall where
  | docs : Nat → List Doc → RCall
  | texts : Nat → List String → Option (List Meta) → RCall

/-- Apply one call to a retriever state. -/
def applyCall (embed : String → Vec) (s : RState) : RCall → RState
  | RCall.docs now ds => (add_documents embed now ds s).2
  | RCall.texts now ts ms => (add_texts embed now ts ms s).2

/-- Apply a sequence of calls, oldest first. -/
def applyCalls (embed : String → Vec) (s : RState) (cs : List RCall) : RState :=
  cs.foldl (applyCall embed) s

/-- A retriever state reachable from a fresh empty index by some sequence of
`add_documents` / `add_texts` calls. -/
def ReachableR (embed : String → Vec) (s : RState) : Prop :=
  ∃ cs : List RCall, applyCalls embed initState cs = s

/-- The three parallel stores are in lockstep: the FAISS structure's vector
count equals the length of `doc_ids` equals the length of `metadata`. -/
def lockstep (s : RState) : Prop :=
  s.index.length = s.doc_ids.length ∧ s.metadata.length = s.doc_ids.length

/-- An `add_texts` call whose `metadatas` argument, when supplied, has at
least one entry per text (so Python's `zip` does not truncate). -/
def goodCall : RCall → Prop
  | RCall.docs _ _ => True
  | RCall.texts _ ts ms =>
      ms = none ∨ ∃ l, ms = some l ∧ ts.length ≤ l.length

/-- Whether the pattern `pat` occurs in `t` starting at position `i`. -/
def matchAt (t pat : List Char) (i : Nat) : Bool :=
  (t.drop i).take pat.length == pat

/-- Downward scan of `str.rfind`: the greatest position in `[b, i]` where
`pat` matches, or `-1`. -/
def rfindFrom (t pat : List Char) (b : Nat) : Nat → Int
  | 0 => if b = 0 && matchAt t pat 0 then 0 else -1
  | i + 1 =>
    if b ≤ i + 1 && matchAt t pat (i + 1) then ((i + 1 : Nat) : Int)
    else rfindFrom t pat b i

/-- Python `text.rfind(pat, b, e)`: the greatest `i` with `b ≤ i`,
`i + len(pat) ≤ min(e, len(text))` and a match of `pat` at `i`, else `-1`. -/
def rfind (t pat : List Char) (b e : Nat) : Int :=
  let bound := min e t.length
  if pat.length ≤ bound then rfindFrom t pat b (bound - pat.length) else -1

/-- The boundary backoff applied inside the `if end < len(text)` block of
`chunk_text` (ingest.py): the raw edge `e` is moved to just past the last
sentence-ending punctuation (`. `, `? `, `! `) found strictly after `start`,
else to the last space strictly after `start`, else left unchanged. -/
def adjustEnd (t : List Char) (start e : Nat) : Nat :=
  let lse := max (max (rfind t ['.', ' '] start e) (rfind t ['?', ' '] start e))
    (rfind t ['!', ' '] start e)
  if (start : Int) < lse then (lse + 1).toNat
  else
    let lsp := rfind t [' '] start e
    if (start : Int) < lsp then lsp.toNat
    else e

/-- The adjusted right edge of one chunking window in `chunk_text`
(ingest.py): the raw edge `min(start + chunk_size, len)`, backed off via
`adjustEnd` whenever it falls strictly inside the text. -/
def windowEnd (t : List Char) (cs start : Nat) : Nat :=
  let e := min (start + cs) t.length
  if e < t.length then adjustEnd t start e else e

/-- `start = end - chunk_overlap if end - chunk_overlap > start else end`
(Nat subtraction truncates at 0, matching the Python comparison since a
non-positive `end - overlap` is never greater than `start`). -/
def nextStart (ov start e : Nat) : Nat :=
  if start < e - ov then e - ov else e

/-- The substring `text[a:b]` as a character list. -/
def extractL (t : List Char) (a b : Nat) : List Char :=
  (t.drop a).take (b - a)

/-- Python `str.strip()`: remove leading and trailing whitespace. -/
def stripChars (l : List Char) : List Char :=
  ((l.dropWhile Char.isWhitespace).reverse.dropWhile Char.isWhitespace).reverse

/-- The `while start < len(text)` loop of `chunk_text`, recorded as the list
of `(start, end)` windows it visits.  `fuel` bounds the number of remaining
iterations; `none` means the loop did not finish within `fuel` iterations. -/
def chunkLoop (t : List Char) (cs ov : Nat) : Nat → Nat → Option (List (Nat × Nat))
  | start, fuel =>
    if start < t.length then
      match fuel with
      | 0 => none
      | f + 1 =>
        let e := windowEnd t cs start
        (chunkLoop t cs ov (nextStart ov start e) f).map (fun ws => (start, e) :: ws)
    else some []

/-- `chunk_text(text, chunk_size, chunk_overlap)` (ingest.py).  A text no
longer than `chunk_size` is returned whole (and unstripped); otherwise each
visited window is emitted as `text[start:end].strip()`.  The loop is run with
`len(text)` iterations of fuel; `none` models non-termination within that
bound. -/
def chunk_text (text : String) (cs ov : Nat) : Option (List String) :=
  let t := text.toList
  if t.length ≤ cs then some [text]
  else
    (chunkLoop t cs ov 0 t.length).map
      (List.map (fun se => String.mk (stripChars (extractL t se.1 se.2))))

/-- Concatenation of the windows' contributions after dropping, from each
window, the part that overlaps the already-covered prefix `[0, p)` of the
text: window `(s, e)` contributes `text[max s p : e]`, and the covered prefix
grows to `max p e`. -/
def coverConcat (t : List Char) : Nat → List (Nat × Nat) → List Char
  | _, [] => []
  | p, (s, e) :: ws => extractL t (max s p) e ++ coverConcat t (max p e) ws

/-- A sentence-ending punctuation pair (`. `, `? ` or `! `) at position `i`
of `t`. -/
def sentAt (t : List Char) (i : Nat) : Prop :=
  matchAt t ['.', ' '] i = true ∨ matchAt t ['?', ' '] i = true ∨
    matchAt t ['!', ' '] i = true

/-- The module-level vector-store state of the HTTP service (api.py): the
FAISS structure plus the parallel `chunks` and `metadata` Python lists. -/
structure ApiState where
  index : List Vec
  chunks : List String
  metadata : List Meta
deriving DecidableEq

/-- One entry of the `results` list built by the `/query` handler. -/
structure ApiResult where
  chunk : String
  metadata : Meta
  score : ℚ
deriving DecidableEq

/-- The observable outcome of a `/query` request: a success body
`{query results, total_chunks}`, an `HTTPException(400, msg)`, or the
generic `HTTPException(500)` raised by the outer handler. -/
inductive ApiResponse where
  | ok : List ApiResult → Nat → ApiResponse
  | clientError : String → ApiResponse
  | serverError : ApiResponse
deriving DecidableEq

/-- The result-construction loop of the `/query` handler: `-1` sentinel
positions are skipped, real positions yield
`{chunk: chunks[idx], metadata: metadata[idx], score: 1/(1+d)}`; an
out-of-range position raises `IndexError` (`none`). -/
def apiHits (st : ApiState) : List (ℚ × Int) → Option (List ApiResult)
  | [] => some []
  | (d, idx) :: rest =>
    if idx = -1 then apiHits st rest
    else
      match st.chunks.get? idx.toNat, st.metadata.get? idx.toNat with
      | some c, some m =>
        (apiHits st rest).map (fun rs =>
          { chunk := c, metadata := m, score := 1 / (1 + d) } :: rs)
      | _, _ => none

/-- The `/query` endpoint (api.py): rejects a query against an empty vector
store with a 400; otherwise embeds the query string (the source has no check
on `q` itself, so an empty string is embedded like any other), clamps
`top_k` to the store size, searches, and returns the results.  The
`faiss.normalize_L2` call in the source normalizes a temporary array and has
no effect on the stored or searched vectors.  Any exception inside the body
reaches the outer handler and becomes a 500. -/
def api_query (embed : String → Vec) (st : ApiState) (q : String) (top_k : Nat) :
    ApiResponse :=
  if st.chunks.isEmpty then ApiResponse.clientError "Vector store is empty"
  else
    let k := min top_k st.chunks.length
    match apiHits st (faissSearch st.index (embed q) k) with
    | some rs => ApiResponse.ok rs st.chunks.length
    | none => ApiResponse.serverError

/-- Outcome of `wikipedia.page(title)` as seen by the ingestion code:
a page (content and url), a `DisambiguationError` carrying the suggested
alternative titles, or any other per-article failure. -/
inductive WikiPage where
  | page : String → String → WikiPage
  | disambig : List String → WikiPage
  | failPage : WikiPage

/-- `process_wikipedia_article(title, original_query)` (ingest.py): the whole
body sits in a `try` whose handler is `except Exception: return None`.
`wikipedia.exceptions.DisambiguationError` is a subclass of `Exception`, so
an ambiguous title is swallowed here and yields `None` — it never propagates
to the caller.  On success the article is processed and the path of the saved
document is returned. -/
def process_wikipedia_article (wiki : String → WikiPage) (hashF : String → Int)
    (now : Nat) (title : String) : Option String :=
  match wiki title with
  | WikiPage.page _ _ =>
      some ("data/processed/wiki_" ++ toString (hashF title) ++ "_" ++ toString now ++ ".json")
  | WikiPage.disambig _ => none
  | WikiPage.failPage => none

/-- `ingest_from_wikipedia(topic, max_articles)` (ingest.py): searches for
the topic and processes each returned title, collecting the paths of the
successfully processed articles.  The source's
`except wikipedia.exceptions.DisambiguationError` retry branch cannot
execute, because `process_wikipedia_article` never raises (its catch-all
handler returns `None` instead); a disambiguated title is therefore simply
skipped. -/
def ingest_from_wikipedia (wiki : String → WikiPage) (searchF : String → List String)
    (hashF : String → Int) (now : Nat) (topic : String) : List String :=
  (searchF topic).foldl
    (fun acc title =>
      match process_wikipedia_article wiki hashF now title with
      | some fp => acc ++ [fp]
      | none => acc)
    []

lemma lockstep_addOneDocument (embed : String → Vec) (now : Nat) (s : RState) (d : Doc)
    (h : lockstep s) : lockstep (addOneDocument embed now s d) := by
  obtain ⟨h1, h2⟩ := h
  unfold addOneDocument
  split
  · exact ⟨h1, h2⟩
  · refine ⟨?_, ?_⟩ <;> simp [h1, h2]

lemma lockstep_docs_foldl (embed : String → Vec) (now : Nat) (docs : List Doc) :
    ∀ (acc : Nat × RState), lockstep acc.2 →
      lockstep (docs.foldl (fun acc d =>
        (acc.1 + (if d.chunks = [] then 0 else d.chunks.length),
         addOneDocument embed now acc.2 d)) acc).2 := by
  induction docs with
  | nil => intro acc hacc; exact hacc
  | cons d ds ih =>
    intro acc hacc
    rw [List.foldl_cons]
    exact ih (acc.1 + (if d.chunks = [] then 0 else d.chunks.length),
      addOneDocument embed now acc.2 d) (lockstep_addOneDocument embed now acc.2 d hacc)

lemma lockstep_add_documents (embed : String → Vec) (now : Nat) (docs : List Doc)
    (s : RState) (h : lockstep s) : lockstep (add_documents embed now docs s).2 := by
  unfold add_documents
  split
  · exact h
  · exact lockstep_docs_foldl embed now docs (0, s) h

lemma lockstep_add_texts_good (embed : String → Vec) (now : Nat) (texts : List String)
    (metadatas : Option (List Meta)) (s : RState) (h : lockstep s)
    (hgood : metadatas = none ∨ ∃ l, metadatas = some l ∧ texts.length ≤ l.length) :
    lockstep (add_texts embed now texts metadatas s).2 := by
  obtain ⟨h1, h2⟩ := h
  unfold add_texts
  split
  · exact ⟨h1, h2⟩
  · have hlen : texts.length ≤ (metadatas.getD (texts.map (fun _ => ([] : Meta)))).length := by
      rcases hgood with hnone | ⟨l, hl, hle⟩
      · subst hnone; simp
      · subst hl; simpa using hle
    refine ⟨?_, ?_⟩ <;>
      simp only [List.length_append, List.length_map, List.enum_length, List.length_zip,
        Nat.min_eq_left hlen, h1, h2]

lemma lockstep_applyCalls (embed : String → Vec) (cs : List RCall) (s : RState)
    (h : lockstep s) (hgood : ∀ c ∈ cs, goodCall c) :
    lockstep (applyCalls embed s cs) := by
  induction cs generalizing s with
  | nil => exact h
  | cons c cs ih =>
    have hc : goodCall c := hgood c (List.mem_cons_self c cs)
    have hstep : lockstep (applyCall embed s c) := by
      cases c with
      | docs now ds => exact lockstep_add_documents embed now ds s h
      | texts now ts ms => exact lockstep_add_texts_good embed now ts ms s h hc
    exact ih (applyCall embed s c) hstep (fun c hmem => hgood c (List.mem_cons_of_mem _ hmem))

/-- C1 (amended): after any sequence of `add_documents` / `add_texts` calls
starting from a fresh index — any documents (empty-chunk documents are
skipped), any texts, and any `metadatas` argument that is either omitted or
has at least one entry per text — the three parallel stores are in lockstep:
the FAISS structure's vector count equals the length of `doc_ids` equals the
length of `metadata`.  (Unrestricted `metadatas` arguments, as in the
original claim, break the invariant; see the counterexample.) -/
theorem add_lockstep_invariant (embed : String → Vec) (cs : List RCall)
    (hgood : ∀ c ∈ cs, goodCall c) :
    lockstep (applyCalls embed initState cs) :=
  lockstep_applyCalls embed cs initState ⟨rfl, rfl⟩ hgood

/-- Witness for `add_lockstep_invariant`: a concrete two-call sequence (an
`add_texts` call without metadatas, then an `add_documents` call with a
two-chunk document and an empty-chunk document). -/
theorem add_lockstep_invariant_witness :
    lockstep (applyCalls (fun _ => ([0] : Vec))
      initState
      [RCall.texts 0 ["t1", "t2"] none,
       RCall.docs 1 [⟨"d", ["c1", "c2"], []⟩, ⟨"e", [], []⟩]]) :=
  add_lockstep_invariant (fun _ => ([0] : Vec)) _
    (by
      intro c hc
      simp only [List.mem_cons, List.not_mem_nil, or_false] at hc
      rcases hc with h | h
      · subst h; exact Or.inl rfl
      · subst h; exact trivial)

/-- C1 (counterexample): one successful `add_texts` call on a fresh index,
with two texts but a one-element `metadatas` list, leaves the FAISS structure
with 2 vectors while `doc_ids` (and `metadata`) have length 1 — the parallel
stores desynchronize, refuting the claim for arbitrary `metadatas`
arguments. -/
theorem add_texts_desync_counterexample :
    (add_texts (fun _ => ([0] : Vec)) 0 ["a", "b"] (some [[]]) initState).2.index.length = 2 ∧
    (add_texts (fun _ => ([0] : Vec)) 0 ["a", "b"] (some [[]]) initState).2.doc_ids.length = 1 ∧
    (add_texts (fun _ => ([0] : Vec)) 0 ["a", "b"] (some [[]]) initState).2.metadata.length = 1 := by
  refine ⟨rfl, rfl, rfl⟩

/-- C2: for every index state reachable by add operations, saving the index
(`save_index`) and loading the two companion files into a fresh `Retriever`
with the same index name reconstructs an index whose `search` behaviour is
identical to the pre-save index for every query string and every `top_k`:
the same chunk ids, texts, metadata and scores, in the same order.
(Serialization of the FAISS file and the JSON metadata file is modelled as
faithful.) -/
theorem save_load_roundtrip (embed : String → Vec) (s : RState)
    (hreach : ReachableR embed s) (name model_info : String) (now : Nat)
    (q : String) (top_k : Nat) :
    search embed (freshRetriever (some (save_index name model_info now s))) q top_k =
      search embed s q top_k :=
  rfl

/-- Witness for `save_load_roundtrip`: a concrete reachable state (one
`add_texts` call on a fresh index), saved and reloaded. -/
theorem save_load_roundtrip_witness :
    search (fun _ => ([0] : Vec))
        (freshRetriever (some (save_index "default" "sentence-transformer" 5
          (applyCalls (fun _ => ([0] : Vec)) initState [RCall.texts 0 ["t"] none])))) "q" 3 =
      search (fun _ => ([0] : Vec))
        (applyCalls (fun _ => ([0] : Vec)) initState [RCall.texts 0 ["t"] none]) "q" 3 :=
  save_load_roundtrip (fun _ => ([0] : Vec)) _ ⟨[RCall.texts 0 ["t"] none], rfl⟩
    "default" "sentence-transformer" 5 "q" 3

lemma rfindFrom_pos (t pat : List Char) (b : Nat) :
    ∀ i, 0 ≤ rfindFrom t pat b i →
      ∃ n : Nat, rfindFrom t pat b i = (n : Int) ∧ b ≤ n ∧ n ≤ i ∧ matchAt t pat n = true := by
  intro i
  induction i with
  | zero =>
    intro h
    by_cases hc : (decide (b = 0) && matchAt t pat 0) = true
    · have hc2 := hc
      simp only [Bool.and_eq_true, decide_eq_true_eq] at hc2
      exact ⟨0, by simp [rfindFrom, hc], Nat.le_of_eq hc2.1,
        Nat.le_refl 0, hc2.2⟩
    · exfalso
      have hval : rfindFrom t pat b 0 = -1 := by
        simp [rfindFrom, hc]
      rw [hval] at h
      omega
  | succ i ih =>
    intro h
    by_cases hc : (decide (b ≤ i + 1) && matchAt t pat (i + 1)) = true
    · have hc2 := hc
      simp only [Bool.and_eq_true, decide_eq_true_eq] at hc2
      exact ⟨i + 1, by simp [rfindFrom, hc], hc2.1, Nat.le_refl _, hc2.2⟩
    · have hrec : rfindFrom t pat b (i + 1) = rfindFrom t pat b i := by
        simp [rfindFrom, hc]
      rw [hrec] at h
      obtain ⟨n, hn, hbn, hni, hm⟩ := ih h
      exact ⟨n, hrec.trans hn, hbn, Nat.le_succ_of_le hni, hm⟩

lemma rfind_pos (t pat : List Char) (b e : Nat) (h : 0 ≤ rfind t pat b e) :
    ∃ n : Nat, rfind t pat b e = (n : Int) ∧ b ≤ n ∧
      n + pat.length ≤ min e t.length ∧ matchAt t pat n = true := by
  unfold rfind at h ⊢
  by_cases hle : pat.length ≤ min e t.length
  · simp only [hle, if_true] at h ⊢
    obtain ⟨n, hn, hbn, hni, hm⟩ := rfindFrom_pos t pat b _ h
    exact ⟨n, hn, hbn, by omega, hm⟩
  · exfalso
    simp only [hle, if_false] at h
    omega

lemma nextStart_gt (ov start e : Nat) (h : start < e) : start < nextStart ov start e := by
  unfold nextStart
  split <;> omega

lemma nextStart_le (ov start e : Nat) : nextStart ov start e ≤ e := by
  unfold nextStart
  split <;> omega

lemma max3_cases (a b c : Int) :
    max (max a b) c = a ∨ max (max a b) c = b ∨ max (max a b) c = c := by
  rcases max_choice (max a b) c with h | h
  · rcases max_choice a b with h2 | h2
    · exact Or.inl (h.trans h2)
    · exact Or.inr (Or.inl (h.trans h2))
  · exact Or.inr (Or.inr h)

lemma rfind_found (t pat : List Char) (start e : Nat) (he : e ≤ t.length)
    (hlt : (start : Int) < rfind t pat start e) :
    ∃ n : Nat, rfind t pat start e = (n : Int) ∧ start < n ∧ n + pat.length ≤ e ∧
      matchAt t pat n = true := by
  obtain ⟨n, hn, hbn, hb, hm⟩ := rfind_pos t pat start e (by omega)
  rw [Nat.min_eq_left he] at hb
  rw [hn] at hlt
  exact ⟨n, hn, by omega, hb, hm⟩

lemma adjustEnd_bounds (t : List Char) (start e : Nat) (h2 : e ≤ t.length)
    (h1 : start < e) :
    start < adjustEnd t start e ∧ adjustEnd t start e ≤ e := by
  unfold adjustEnd
  by_cases hlse : (start : Int) < max (max (rfind t ['.', ' '] start e)
      (rfind t ['?', ' '] start e)) (rfind t ['!', ' '] start e)
  · simp only [hlse, if_true]
    rcases max3_cases (rfind t ['.', ' '] start e) (rfind t ['?', ' '] start e)
        (rfind t ['!', ' '] start e) with hm | hm | hm <;>
      rw [hm] at hlse ⊢ <;>
      · obtain ⟨n, hn, hgt, hb, _⟩ := rfind_found t _ start e h2 hlse
        rw [hn]
        simp only [List.length_cons, List.length_nil] at hb
        omega
  · simp only [hlse, if_false]
    by_cases hlsp : (start : Int) < rfind t [' '] start e
    · simp only [hlsp, if_true]
      obtain ⟨n, hn, hgt, hb, _⟩ := rfind_found t [' '] start e h2 hlsp
      rw [hn]
      simp only [List.length_cons, List.length_nil] at hb
      omega
    · simp only [hlsp, if_false]
      omega

lemma windowEnd_bounds (t : List Char) (cs start : Nat) (hcs : 0 < cs)
    (hstart : start < t.length) :
    start < windowEnd t cs start ∧ windowEnd t cs start ≤ t.length := by
  unfold windowEnd
  by_cases hin : min (start + cs) t.length < t.length
  · simp only [hin, if_true]
    have hb := adjustEnd_bounds t start (min (start + cs) t.length)
      (Nat.min_le_right _ _) (by omega)
    omega
  · simp only [hin, if_false]
    omega

lemma chunkLoop_isSome (t : List Char) (cs ov : Nat) (hcs : 0 < cs) :
    ∀ fuel start, t.length - start ≤ fuel →
      (chunkLoop t cs ov start fuel).isSome = true := by
  intro fuel
  induction fuel with
  | zero =>
    intro start h
    have hns : ¬ start < t.length := by omega
    simp [chunkLoop, hns]
  | succ f ih =>
    intro start h
    by_cases hs : start < t.length
    · have hw := windowEnd_bounds t cs start hcs hs
      have hadv := nextStart_gt ov start (windowEnd t cs start) hw.1
      have hrec := ih (nextStart ov start (windowEnd t cs start)) (by omega)
      simp [chunkLoop, hs, hrec]
    · simp [chunkLoop, hs]

/-- C3: for every text longer than `chunk_size`, every `chunk_size > 0` and
every `overlap ≥ 0` (including `overlap ≥ chunk_size`), the `chunk_text` loop
makes strict forward progress — at every in-range window start the adjusted
window end strictly exceeds the start and the next start strictly exceeds
the previous one — and therefore terminates within `len(text)` iterations of
fuel. -/
theorem chunk_text_terminates (text : String) (cs ov : Nat) (hcs : 0 < cs)
    (hlen : cs < text.toList.length) :
    (∀ start, start < text.toList.length →
      start < windowEnd text.toList cs start ∧
      windowEnd text.toList cs start ≤ text.toList.length ∧
      start < nextStart ov start (windowEnd text.toList cs start)) ∧
    (chunkLoop text.toList cs ov 0 text.toList.length).isSome = true ∧
    (chunk_text text cs ov).isSome = true := by
  refine ⟨?_, ?_, ?_⟩
  · intro start hs
    have hw := windowEnd_bounds text.toList cs start hcs hs
    exact ⟨hw.1, hw.2, nextStart_gt ov start _ hw.1⟩
  · exact chunkLoop_isSome text.toList cs ov hcs text.toList.length 0 (by omega)
  · unfold chunk_text
    have hle : ¬ text.toList.length ≤ cs := by omega
    simp only [hle, if_false]
    have := chunkLoop_isSome text.toList cs ov hcs text.toList.length 0 (by omega)
    simpa using this

/-- Witness for `chunk_text_terminates`: the six-character text `"abcdef"`
with `chunk_size = 2` and `overlap = 5 ≥ chunk_size`. -/
theorem chunk_text_terminates_witness :
    (chunkLoop "abcdef".toList 2 5 0 "abcdef".toList.length).isSome = true ∧
    (chunk_text "abcdef" 2 5).isSome = true :=
  ⟨(chunk_text_terminates "abcdef" 2 5 (by decide) (by decide)).2.1,
   (chunk_text_terminates "abcdef" 2 5 (by decide) (by decide)).2.2⟩

lemma extract_drop_append (t : List Char) (p e : Nat) :
    extractL t p e ++ t.drop (max p e) = t.drop p := by
  by_cases h : e ≤ p
  · rw [Nat.max_eq_left h]
    unfold extractL
    have he : e - p = 0 := by omega
    rw [he]
    simp
  · rw [Nat.max_eq_right (le_of_not_le h)]
    unfold extractL
    have hd : (t.drop p).drop (e - p) = t.drop e := by
      rw [List.drop_drop]
      congr 1
      omega
    rw [← hd, List.take_append_drop]

lemma coverConcat_chunkLoop (t : List Char) (cs ov : Nat) :
    ∀ fuel start p ws, start ≤ p →
      chunkLoop t cs ov start fuel = some ws →
      coverConcat t p ws = t.drop p := by
  intro fuel
  induction fuel with
  | zero =>
    intro start p ws hsp hloop
    by_cases hs : start < t.length
    · simp [chunkLoop, hs] at hloop
    · simp only [chunkLoop, hs, if_false, Option.some.injEq] at hloop
      subst hloop
      rw [coverConcat, eq_comm, List.drop_eq_nil_iff]
      omega
  | succ f ih =>
    intro start p ws hsp hloop
    by_cases hs : start < t.length
    · simp only [chunkLoop, hs, if_true] at hloop
      rw [Option.map_eq_some'] at hloop
      obtain ⟨ws', hrec, hws⟩ := hloop
      subst hws
      rw [coverConcat, Nat.max_eq_right hsp]
      have hnext := ih (nextStart ov start (windowEnd t cs start)) (max p (windowEnd t cs start))
        ws' (le_trans (nextStart_le ov start _) (Nat.le_max_right _ _)) hrec
      rw [hnext]
      exact extract_drop_append t p (windowEnd t cs start)
    · simp only [chunkLoop, hs, if_false, Option.some.injEq] at hloop
      subst hloop
      rw [coverConcat, eq_comm, List.drop_eq_nil_iff]
      omega

/-- C4 (amended): for every text, `chunk_size > 0` and `overlap ≥ 0`, the
windows visited by `chunk_text` cover the input with no gaps: concatenating
the window substrings after removing, from each window, its overlap with the
already-covered prefix reconstructs the original text exactly.  The returned
chunks are these window substrings with surrounding whitespace trimmed by
`str.strip()`, so (contrary to the original claim) whitespace characters at
window boundaries are additionally dropped from the returned chunks; a text
no longer than `chunk_size` is returned whole and untrimmed. -/
theorem chunk_text_coverage (text : String) (cs ov : Nat) (hcs : 0 < cs) :
    (text.toList.length ≤ cs → chunk_text text cs ov = some [text]) ∧
    (cs < text.toList.length →
      ∃ ws, chunkLoop text.toList cs ov 0 text.toList.length = some ws ∧
        coverConcat text.toList 0 ws = text.toList ∧
        chunk_text text cs ov =
          some (ws.map (fun se => String.mk (stripChars (extractL text.toList se.1 se.2))))) := by
  constructor
  · intro h
    have h2 : text.length ≤ cs := by simpa using h
    simp [chunk_text, h2]
  · intro h
    have hsome := chunkLoop_isSome text.toList cs ov hcs text.toList.length 0 (by omega)
    obtain ⟨ws, hws⟩ := Option.isSome_iff_exists.mp hsome
    refine ⟨ws, hws, ?_, ?_⟩
    · have := coverConcat_chunkLoop text.toList cs ov text.toList.length 0 0 ws
        (Nat.le_refl 0) hws
      simpa using this
    · have h2 : ¬ text.length ≤ cs := by
        have h3 : ¬ text.toList.length ≤ cs := by omega
        simpa using h3
      have hws2 : chunkLoop text.data cs ov 0 text.length = some ws := by
        simpa using hws
      simp [chunk_text, h2, hws2]

/-- Witness for `chunk_text_coverage`: the text `"ab cd ef"` with
`chunk_size = 4`, `overlap = 1`. -/
theorem chunk_text_coverage_witness :
    ∃ ws, chunkLoop "ab cd ef".toList 4 1 0 "ab cd ef".toList.length = some ws ∧
      coverConcat "ab cd ef".toList 0 ws = "ab cd ef".toList ∧
      chunk_text "ab cd ef" 4 1 =
        some (ws.map (fun se => String.mk (stripChars (extractL "ab cd ef".toList se.1 se.2)))) :=
  (chunk_text_coverage "ab cd ef" 4 1 (by decide)).2 (by decide)

/-- C4 (counterexample): with `overlap = 0` there are no overlap regions, so
the original claim asserts that concatenating the returned chunks
reconstructs the text; but `chunk_text "ab cd ef" 4 0` returns
`["ab", "cd", "ef"]`, whose concatenation `"abcdef"` has lost the two spaces
(dropped by `str.strip()` at window boundaries). -/
theorem chunk_text_coverage_counterexample :
    chunk_text "ab cd ef" 4 0 = some ["ab", "cd", "ef"] ∧
    String.join ["ab", "cd", "ef"] ≠ "ab cd ef" :=
  ⟨by decide, by decide⟩

lemma rfindFrom_maximal (t pat : List Char) (b : Nat) :
    ∀ i j, b ≤ j → j ≤ i → matchAt t pat j = true → (j : Int) ≤ rfindFrom t pat b i := by
  intro i
  induction i with
  | zero =>
    intro j hbj hji hm
    have hj0 : j = 0 := by omega
    subst hj0
    have hb0 : b = 0 := by omega
    subst hb0
    simp [rfindFrom, hm]
  | succ i ih =>
    intro j hbj hji hm
    by_cases hc : (decide (b ≤ i + 1) && matchAt t pat (i + 1)) = true
    · have hv : rfindFrom t pat b (i + 1) = ((i + 1 : Nat) : Int) := by
        simp [rfindFrom, hc]
      rw [hv]
      exact_mod_cast hji
    · have hji2 : j ≤ i := by
        rcases Nat.lt_or_ge j (i + 1) with hlt | hge
        · omega
        · exfalso
          have hj : j = i + 1 := by omega
          subst hj
          exact hc (by simp [hbj, hm])
      have hv : rfindFrom t pat b (i + 1) = rfindFrom t pat b i := by
        simp [rfindFrom, hc]
      rw [hv]
      exact ih j hbj hji2 hm

lemma rfind_maximal (t pat : List Char) (b e : Nat) (j : Nat) (hbj : b ≤ j)
    (hje : j + pat.length ≤ min e t.length) (hm : matchAt t pat j = true) :
    (j : Int) ≤ rfind t pat b e := by
  unfold rfind
  have hple : pat.length ≤ min e t.length := by omega
  simp only [hple, if_true]
  exact rfindFrom_maximal t pat b (min e t.length - pat.length) j hbj (by omega) hm

lemma sentAt_le_lse (t : List Char) (start E : Nat) (hE : E ≤ t.length) (q : Nat)
    (hsq : start ≤ q) (hq : q + 2 ≤ E) (hs : sentAt t q) :
    (q : Int) ≤ max (max (rfind t ['.', ' '] start E) (rfind t ['?', ' '] start E))
      (rfind t ['!', ' '] start E) := by
  have hmin : q + 2 ≤ min E t.length := by omega
  rcases hs with h | h | h
  · exact le_trans (rfind_maximal t ['.', ' '] start E q hsq (by simpa using hmin) h)
      (le_trans (le_max_left _ _) (le_max_left _ _))
  · exact le_trans (rfind_maximal t ['?', ' '] start E q hsq (by simpa using hmin) h)
      (le_trans (le_max_right _ _) (le_max_left _ _))
  · exact le_trans (rfind_maximal t ['!', ' '] start E q hsq (by simpa using hmin) h)
      (le_max_right _ _)

/-- C5 (amended): at each window of `chunk_text` (ingest.py) whose raw right
edge falls strictly inside the text, the backoff is applied unconditionally —
the source never checks whether the edge lands on a word boundary.  The cut
moves to just past the last sentence-ending punctuation (`. `, `? `, `! `)
that starts strictly after the window start and fits before the raw edge;
failing that, to the last space strictly after the window start and before
the raw edge; failing that, it stays at the raw edge.  (The original claim's
word-boundary exception is refuted by the counterexample; the `chunk_text`
variant in api.py does perform that check but never backs off to sentence
punctuation, so the original claim holds for neither function.) -/
theorem chunk_boundary_backoff (t : List Char) (cs start : Nat) (hcs : 0 < cs)
    (hin : min (start + cs) t.length < t.length) :
    (∃ p, start < p ∧ p + 2 ≤ min (start + cs) t.length ∧ sentAt t p ∧
        (∀ q, start < q → q + 2 ≤ min (start + cs) t.length → sentAt t q → q ≤ p) ∧
        windowEnd t cs start = p + 1) ∨
    ((∀ q, start < q → q + 2 ≤ min (start + cs) t.length → ¬ sentAt t q) ∧
      ∃ p, start < p ∧ p + 1 ≤ min (start + cs) t.length ∧ matchAt t [' '] p = true ∧
        (∀ q, start < q → q + 1 ≤ min (start + cs) t.length → matchAt t [' '] q = true →
          q ≤ p) ∧
        windowEnd t cs start = p) ∨
    ((∀ q, start < q → q + 2 ≤ min (start + cs) t.length → ¬ sentAt t q) ∧
      (∀ q, start < q → q + 1 ≤ min (start + cs) t.length → matchAt t [' '] q = false) ∧
      windowEnd t cs start = min (start + cs) t.length) := by
  set E := min (start + cs) t.length with hEdef
  have hE : E ≤ t.length := by omega
  have hwe : windowEnd t cs start = adjustEnd t start E := by
    unfold windowEnd
    simp [hin, hEdef]
  rw [hwe]
  unfold adjustEnd
  by_cases hlse : (start : Int) < max (max (rfind t ['.', ' '] start E)
      (rfind t ['?', ' '] start E)) (rfind t ['!', ' '] start E)
  · left
    simp only [hlse, if_true]
    rcases max3_cases (rfind t ['.', ' '] start E) (rfind t ['?', ' '] start E)
        (rfind t ['!', ' '] start E) with hm | hm | hm <;>
      rw [hm] at hlse ⊢
    · obtain ⟨p, hp, hgt, hb, hmt⟩ := rfind_found t ['.', ' '] start E hE hlse
      refine ⟨p, hgt, by simpa using hb, Or.inl hmt, ?_, ?_⟩
      · intro q h1 h2 hsq
        have hq := sentAt_le_lse t start E hE q (le_of_lt h1) h2 hsq
        rw [hm, hp] at hq
        exact_mod_cast hq
      · rw [hp]; omega
    · obtain ⟨p, hp, hgt, hb, hmt⟩ := rfind_found t ['?', ' '] start E hE hlse
      refine ⟨p, hgt, by simpa using hb, Or.inr (Or.inl hmt), ?_, ?_⟩
      · intro q h1 h2 hsq
        have hq := sentAt_le_lse t start E hE q (le_of_lt h1) h2 hsq
        rw [hm, hp] at hq
        exact_mod_cast hq
      · rw [hp]; omega
    · obtain ⟨p, hp, hgt, hb, hmt⟩ := rfind_found t ['!', ' '] start E hE hlse
      refine ⟨p, hgt, by simpa using hb, Or.inr (Or.inr hmt), ?_, ?_⟩
      · intro q h1 h2 hsq
        have hq := sentAt_le_lse t start E hE q (le_of_lt h1) h2 hsq
        rw [hm, hp] at hq
        exact_mod_cast hq
      · rw [hp]; omega
  · have hnosent : ∀ q, start < q → q + 2 ≤ E → ¬ sentAt t q := by
      intro q h1 h2 hsq
      have hq := sentAt_le_lse t start E hE q (le_of_lt h1) h2 hsq
      omega
    simp only [hlse, if_false]
    by_cases hlsp : (start : Int) < rfind t [' '] start E
    · right; left
      simp only [hlsp, if_true]
      obtain ⟨p, hp, hgt, hb, hmt⟩ := rfind_found t [' '] start E hE hlsp
      refine ⟨hnosent, p, hgt, by simpa using hb, hmt, ?_, ?_⟩
      · intro q h1 h2 hmq
        have hq := rfind_maximal t [' '] start E q (le_of_lt h1)
          (by simpa using (show q + 1 ≤ min E t.length by omega)) hmq
        rw [hp] at hq
        exact_mod_cast hq
      · rw [hp]; omega
    · right; right
      simp only [hlsp, if_false]
      refine ⟨hnosent, ?_, by trivial⟩
      intro q h1 h2
      cases hmq : matchAt t [' '] q with
      | false => rfl
      | true =>
        exfalso
        have hq := rfind_maximal t [' '] start E q (le_of_lt h1)
          (by simpa using (show q + 1 ≤ min E t.length by omega)) hmq
        omega

/-- C5 (counterexample): in `"ab. cdefgh ijklmnop"` with `chunk_size = 10`,
the first window's raw edge (position 10) lands on a space — a word boundary
— so the claim requires the cut to stay at the raw edge 10; but `chunk_text`
backs off to the sentence end and cuts at 3, making the first chunk `"ab."`
instead of `"ab. cdefgh"`. -/
theorem chunk_boundary_backoff_counterexample :
    "ab. cdefgh ijklmnop".toList.get? 10 = some ' ' ∧
    windowEnd "ab. cdefgh ijklmnop".toList 10 0 = 3 ∧
    chunk_text "ab. cdefgh ijklmnop" 10 0 = some ["ab.", "cdefgh", "ijklmnop"] :=
  ⟨by decide, by decide, by decide⟩

/-- Witness for `chunk_boundary_backoff`: the first window of
`"ab. cdefgh ijklmnop"` with `chunk_size = 10`, `start = 0`. -/
theorem chunk_boundary_backoff_witness :
    (∃ p, 0 < p ∧ p + 2 ≤ min (0 + 10) "ab. cdefgh ijklmnop".toList.length ∧
        sentAt "ab. cdefgh ijklmnop".toList p ∧
        (∀ q, 0 < q → q + 2 ≤ min (0 + 10) "ab. cdefgh ijklmnop".toList.length →
          sentAt "ab. cdefgh ijklmnop".toList q → q ≤ p) ∧
        windowEnd "ab. cdefgh ijklmnop".toList 10 0 = p + 1) ∨
    ((∀ q, 0 < q → q + 2 ≤ min (0 + 10) "ab. cdefgh ijklmnop".toList.length →
        ¬ sentAt "ab. cdefgh ijklmnop".toList q) ∧
      ∃ p, 0 < p ∧ p + 1 ≤ min (0 + 10) "ab. cdefgh ijklmnop".toList.length ∧
        matchAt "ab. cdefgh ijklmnop".toList [' '] p = true ∧
        (∀ q, 0 < q → q + 1 ≤ min (0 + 10) "ab. cdefgh ijklmnop".toList.length →
          matchAt "ab. cdefgh ijklmnop".toList [' '] q = true → q ≤ p) ∧
        windowEnd "ab. cdefgh ijklmnop".toList 10 0 = p) ∨
    ((∀ q, 0 < q → q + 2 ≤ min (0 + 10) "ab. cdefgh ijklmnop".toList.length →
        ¬ sentAt "ab. cdefgh ijklmnop".toList q) ∧
      (∀ q, 0 < q → q + 1 ≤ min (0 + 10) "ab. cdefgh ijklmnop".toList.length →
        matchAt "ab. cdefgh ijklmnop".toList [' '] q = false) ∧
      windowEnd "ab. cdefgh ijklmnop".toList 10 0 =
        min (0 + 10) "ab. cdefgh ijklmnop".toList.length) :=
  chunk_boundary_backoff "ab. cdefgh ijklmnop".toList 10 0 (by decide) (by decide)

lemma insertLe_perm (le : α → α → Bool) (a : α) (l : List α) :
    (insertLe le a l).Perm (a :: l) := by
  induction l with
  | nil => exact List.Perm.refl _
  | cons b bs ih =>
    unfold insertLe
    split
    · exact List.Perm.refl _
    · exact List.Perm.trans (List.Perm.cons b ih) (List.Perm.swap a b bs)

lemma isort_perm (le : α → α → Bool) (l : List α) : (isort le l).Perm l := by
  induction l with
  | nil => exact List.Perm.refl _
  | cons a as ih =>
    exact List.Perm.trans (insertLe_perm le a (isort le as)) (List.Perm.cons a ih)

lemma insertLe_pairwise (le : α → α → Bool)
    (htrans : ∀ a b c, le a b = true → le b c = true → le a c = true)
    (htotal : ∀ a b, le a b = true ∨ le b a = true)
    (a : α) (l : List α) (hl : l.Pairwise (fun x y => le x y = true)) :
    (insertLe le a l).Pairwise (fun x y => le x y = true) := by
  induction l with
  | nil => simp [insertLe]
  | cons b bs ih =>
    rcases List.pairwise_cons.mp hl with ⟨hb, hbs⟩
    unfold insertLe
    split
    next hab =>
      refine List.pairwise_cons.mpr ⟨?_, hl⟩
      intro x hx
      rcases List.mem_cons.mp hx with hxb | hx2
      · exact hxb ▸ hab
      · exact htrans a b x hab (hb x hx2)
    next hab =>
      have hba : le b a = true := (htotal a b).resolve_left hab
      refine List.pairwise_cons.mpr ⟨?_, ih hbs⟩
      intro x hx
      have hmem := (insertLe_perm le a bs).mem_iff.mp hx
      rcases List.mem_cons.mp hmem with hxa | hx2
      · exact hxa ▸ hba
      · exact hb x hx2

lemma isort_pairwise (le : α → α → Bool)
    (htrans : ∀ a b c, le a b = true → le b c = true → le a c = true)
    (htotal : ∀ a b, le a b = true ∨ le b a = true) (l : List α) :
    (isort le l).Pairwise (fun x y => le x y = true) := by
  induction l with
  | nil => simp [isort]
  | cons a as ih => exact insertLe_pairwise le htrans htotal a (isort le as) ih

lemma lexLe_trans : ∀ a b c : ℚ × Int,
    lexLe a b = true → lexLe b c = true → lexLe a c = true := by
  intro a b c hab hbc
  simp only [lexLe, Bool.or_eq_true, Bool.and_eq_true, decide_eq_true_eq] at *
  rcases hab with h | ⟨h1, h2⟩ <;> rcases hbc with g | ⟨g1, g2⟩
  · exact Or.inl (lt_trans h g)
  · exact Or.inl (by rw [← g1]; exact h)
  · exact Or.inl (by rw [h1]; exact g)
  · exact Or.inr ⟨h1.trans g1, le_trans h2 g2⟩

lemma lexLe_total : ∀ a b : ℚ × Int, lexLe a b = true ∨ lexLe b a = true := by
  intro a b
  simp only [lexLe, Bool.or_eq_true, Bool.and_eq_true, decide_eq_true_eq]
  rcases lt_trichotomy a.1 b.1 with h | h | h
  · exact Or.inl (Or.inl h)
  · rcases le_total a.2 b.2 with h2 | h2
    · exact Or.inl (Or.inr ⟨h, h2⟩)
    · exact Or.inr (Or.inr ⟨h.symm, h2⟩)
  · exact Or.inr (Or.inl h)

lemma sqDist_nonneg (u v : Vec) : 0 ≤ sqDist u v := by
  unfold sqDist
  apply List.sum_nonneg
  intro x hx
  obtain ⟨p, _, hp⟩ := List.mem_map.mp hx
  rw [← hp]
  positivity

/-- The result record built by `Retriever.search` for one in-range FAISS hit
`(distance, index)` (proof-side restatement of the loop body of
`searchHits`). -/
def mkResult (s : RState) (di : ℚ × Int) : SearchResult :=
  { chunk_id := s.doc_ids.getD di.2.toNat ""
    text := (dictGet (s.metadata.getD di.2.toNat []) "chunk_text").getD (MVal.str "")
    metadata := dictPop (s.metadata.getD di.2.toNat []) "chunk_text"
    score := 1 / (1 + di.1) }

lemma searchHits_eq_map (s : RState) :
    ∀ hits, (∀ di ∈ hits, 0 ≤ di.2 ∧ di.2.toNat < s.metadata.length ∧
        di.2.toNat < s.doc_ids.length) →
      searchHits s hits = some (hits.map (mkResult s)) := by
  intro hits
  induction hits with
  | nil => intro _; rfl
  | cons di rest ih =>
    intro h
    obtain ⟨h0, hmlt, hdlt⟩ := h di (List.mem_cons_self _ _)
    have hrest := ih (fun x hx => h x (List.mem_cons_of_mem _ hx))
    obtain ⟨d, idx⟩ := di
    have hne : ¬ idx = -1 := by
      simp only at h0
      omega
    have hmm : s.metadata.get? idx.toNat = some (s.metadata.getD idx.toNat []) := by
      rw [List.get?_eq_getElem?, List.getD_eq_getElem?_getD,
        List.getElem?_eq_getElem hmlt]
      rfl
    have hdd : s.doc_ids.get? idx.toNat = some (s.doc_ids.getD idx.toNat "") := by
      rw [List.get?_eq_getElem?, List.getD_eq_getElem?_getD,
        List.getElem?_eq_getElem hdlt]
      rfl
    simp only [searchHits, hne, if_false, hmm, hdd, hrest, Option.map_some', List.map_cons]
    rfl

lemma faissSearch_mem (vecs : List Vec) (q : Vec) (k : Nat) (hk : k ≤ vecs.length) :
    ∀ di ∈ faissSearch vecs q k, ∃ i : Nat, di.2 = (i : Int) ∧ i < vecs.length ∧
      di.1 = sqDist q (vecs.getD i []) := by
  intro di hdi
  simp only [faissSearch] at hdi
  have hslen : (isort lexLe (vecs.enum.map
      (fun p => (sqDist q p.2, (p.1 : Int))))).length = vecs.length := by
    rw [(isort_perm lexLe _).length_eq]
    simp
  have htop : ((isort lexLe (vecs.enum.map
      (fun p => (sqDist q p.2, (p.1 : Int))))).take k).length = k := by
    rw [List.length_take, hslen]
    omega
  rw [htop, Nat.sub_self, List.replicate_zero, List.append_nil] at hdi
  have hmem := (isort_perm lexLe _).mem_iff.mp ((List.take_sublist k _).subset hdi)
  obtain ⟨p, hp, hpe⟩ := List.mem_map.mp hmem
  obtain ⟨i, x⟩ := p
  obtain ⟨hlt, hx⟩ := List.mem_enum hp
  refine ⟨i, ?_, hlt, ?_⟩
  · rw [← hpe]
  · rw [← hpe]
    simp only
    rw [hx, List.getD_eq_getElem?_getD, List.getElem?_eq_getElem hlt]
    rfl

lemma faissSearch_sorted (vecs : List Vec) (q : Vec) (k : Nat) (hk : k ≤ vecs.length) :
    (faissSearch vecs q k).Pairwise
      (fun a b => a.1 < b.1 ∨ (a.1 = b.1 ∧ a.2 < b.2)) := by
  simp only [faissSearch]
  have hslen : (isort lexLe (vecs.enum.map
      (fun p => (sqDist q p.2, (p.1 : Int))))).length = vecs.length := by
    rw [(isort_perm lexLe _).length_eq]
    simp
  have htop : ((isort lexLe (vecs.enum.map
      (fun p => (sqDist q p.2, (p.1 : Int))))).take k).length = k := by
    rw [List.length_take, hslen]
    omega
  rw [htop, Nat.sub_self, List.replicate_zero, List.append_nil]
  have hsorted := (isort_pairwise lexLe lexLe_trans lexLe_total
    (vecs.enum.map (fun p => (sqDist q p.2, (p.1 : Int))))).sublist
    (List.take_sublist k _)
  have hnodup : ((isort lexLe (vecs.enum.map
      (fun p => (sqDist q p.2, (p.1 : Int))))).take k).Pairwise
      (fun a b => a.2 ≠ b.2) := by
    rw [← List.pairwise_map (f := Prod.snd)]
    have hnd : ((vecs.enum.map (fun p => (sqDist q p.2, (p.1 : Int)))).map
        Prod.snd).Nodup := by
      rw [List.map_map]
      have : (Prod.snd ∘ fun p : Nat × Vec => (sqDist q p.2, (p.1 : Int))) =
          (fun p : Nat × Vec => (p.1 : Int)) := rfl
      rw [this]
      have : (fun p : Nat × Vec => (p.1 : Int)) =
          (fun n : Nat => (n : Int)) ∘ Prod.fst := rfl
      rw [this, ← List.map_map, List.enum_map_fst]
      exact (List.nodup_range _).map (fun a b => by omega)
    have hperm := ((isort_perm lexLe (vecs.enum.map
      (fun p => (sqDist q p.2, (p.1 : Int))))).map Prod.snd)
    have hnd2 := (hperm.nodup_iff).mpr hnd
    rw [List.map_take]
    exact hnd2.sublist (List.take_sublist k _)
  refine (hsorted.and hnodup).imp ?_
  intro a b hab
  obtain ⟨hle, hne⟩ := hab
  simp only [lexLe, Bool.or_eq_true, Bool.and_eq_true, decide_eq_true_eq] at hle
  rcases hle with h | ⟨h1, h2⟩
  · exact Or.inl h
  · exact Or.inr ⟨h1, lt_of_le_of_ne h2 hne⟩

/-- C6: for every query string and every `top_k ≥ 1`, `Retriever.search` on
an index in lockstep holding `n` chunks never raises and returns exactly
`min(top_k, n)` results — an empty list when `n = 0`, exactly `n` results
when `top_k > n` (`top_k` is clamped before the FAISS call, so no `-1`
sentinel padding ever reaches, or is surfaced in, the result list). -/
theorem search_clamps (embed : String → Vec) (s : RState) (q : String) (k : Nat)
    (hsync : lockstep s) (hk : 1 ≤ k) :
    ∃ rs, (search embed s q k).1 = some rs ∧ rs.length = min k s.doc_ids.length := by
  obtain ⟨h1, h2⟩ := hsync
  by_cases hempty : s.doc_ids = []
  · refine ⟨[], ?_, ?_⟩
    · simp [search, hempty]
    · simp [hempty]
  · have hkn : min k s.doc_ids.length ≤ s.index.length := by
      rw [h1]
      omega
    have hhits : ∀ di ∈ faissSearch s.index (embed q) (min k s.doc_ids.length),
        0 ≤ di.2 ∧ di.2.toNat < s.metadata.length ∧ di.2.toNat < s.doc_ids.length := by
      intro di hdi
      obtain ⟨i, hi2, hilt, _⟩ := faissSearch_mem s.index (embed q) _ hkn di hdi
      rw [hi2]
      refine ⟨by omega, ?_, ?_⟩ <;> simp only [Int.toNat_ofNat] <;> omega
    refine ⟨(faissSearch s.index (embed q) (min k s.doc_ids.length)).map (mkResult s),
      ?_, ?_⟩
    · simp only [search, hempty, if_false]
      exact searchHits_eq_map s _ hhits
    · rw [List.length_map]
      unfold faissSearch
      have hslen : (isort lexLe (s.index.enum.map
          (fun p => (sqDist (embed q) p.2, (p.1 : Int))))).length = s.index.length := by
        rw [(isort_perm lexLe _).length_eq]
        simp
      rw [List.length_append, List.length_take, List.length_replicate, hslen]
      omega

/-- Witness for `search_clamps`: a two-chunk index queried with `top_k = 5`
returns exactly `min 5 2 = 2` results. -/
theorem search_clamps_witness :
    ∃ rs, (search (fun t => [(t.length : ℚ)])
        ⟨[[1], [2]], ["a", "b"], [[("chunk_text", MVal.str "x")], []]⟩ "qq" 5).1 = some rs ∧
      rs.length = min 5 (RState.mk [[1], [2]] ["a", "b"]
        [[("chunk_text", MVal.str "x")], []]).doc_ids.length :=
  search_clamps (fun t => [(t.length : ℚ)]) _ "qq" 5 ⟨rfl, rfl⟩ (by omega)

/-- C7: every result returned by `Retriever.search` on an in-lockstep index
carries score `1 / (1 + d)` where `d ≥ 0` is the squared-L2 distance between
the query embedding and that result's stored vector — so every score lies in
`(0, 1]` — and the result list is sorted by non-increasing score
(strictly decreasing in distance), ties broken by ascending insertion-order
position (`idxs` pairs each result with the index position it came from). -/
theorem search_score_ordering (embed : String → Vec) (s : RState) (q : String)
    (k : Nat) (hsync : lockstep s) :
    ∃ rs, (search embed s q k).1 = some rs ∧
      ∃ idxs : List Nat, idxs.length = rs.length ∧
        (∀ pr ∈ rs.zip idxs,
          pr.2 < s.doc_ids.length ∧
          0 ≤ sqDist (embed q) (s.index.getD pr.2 []) ∧
          pr.1.score = 1 / (1 + sqDist (embed q) (s.index.getD pr.2 [])) ∧
          0 < pr.1.score ∧ pr.1.score ≤ 1 ∧
          pr.1.chunk_id = s.doc_ids.getD pr.2 "") ∧
        (rs.zip idxs).Pairwise
          (fun a b => b.1.score < a.1.score ∨ (a.1.score = b.1.score ∧ a.2 < b.2)) := by
  obtain ⟨h1, h2⟩ := hsync
  by_cases hempty : s.doc_ids = []
  · refine ⟨[], by simp [search, hempty], [], rfl, ?_, ?_⟩ <;> simp
  · have hkn : min k s.doc_ids.length ≤ s.index.length := by
      rw [h1]
      omega
    set hits := faissSearch s.index (embed q) (min k s.doc_ids.length) with hhitsdef
    have hmem := faissSearch_mem s.index (embed q) (min k s.doc_ids.length) hkn
    have hhits : ∀ di ∈ hits, 0 ≤ di.2 ∧ di.2.toNat < s.metadata.length ∧
        di.2.toNat < s.doc_ids.length := by
      intro di hdi
      obtain ⟨i, hi2, hilt, _⟩ := hmem di hdi
      rw [hi2]
      refine ⟨by omega, ?_, ?_⟩ <;> simp only [Int.toNat_ofNat] <;> omega
    refine ⟨hits.map (mkResult s), ?_, hits.map (fun di => di.2.toNat), ?_, ?_, ?_⟩
    · simp only [search, hempty, if_false]
      exact searchHits_eq_map s hits hhits
    · simp
    · intro pr hpr
      rw [List.zip_map' (mkResult s) (fun di => di.2.toNat) hits] at hpr
      obtain ⟨di, hdi, hpre⟩ := List.mem_map.mp hpr
      obtain ⟨i, hi2, hilt, hid⟩ := hmem di hdi
      subst hpre
      have hitoNat : di.2.toNat = i := by rw [hi2]; rfl
      have hd0 : 0 ≤ di.1 := by
        rw [hid]
        exact sqDist_nonneg _ _
      have hscore : (mkResult s di).score = 1 / (1 + di.1) := rfl
      refine ⟨?_, ?_, ?_, ?_, ?_, ?_⟩
      · simp only [hitoNat]
        omega
      · exact sqDist_nonneg _ _
      · simp only [hitoNat, hscore]
        rw [hid]
      · rw [hscore]
        positivity
      · rw [hscore]
        rw [div_le_one (by linarith)]
        linarith
      · simp only [mkResult]
    · rw [List.zip_map' (mkResult s) (fun di => di.2.toNat) hits]
      have hsorted := faissSearch_sorted s.index (embed q) (min k s.doc_ids.length) hkn
      rw [← hhitsdef] at hsorted
      refine List.pairwise_map.mpr (hsorted.imp_of_mem ?_)
      intro a b ha hb hab
      obtain ⟨ia, ha2, _, hda⟩ := hmem a ha
      obtain ⟨ib, hb2, _, hdb⟩ := hmem b hb
      have ha0 : 0 ≤ a.1 := by
        rw [hda]
        exact sqDist_nonneg _ _
      rcases hab with h | ⟨hq1, hq2⟩
      · left
        show 1 / (1 + b.1) < 1 / (1 + a.1)
        exact one_div_lt_one_div_of_lt (by linarith) (by linarith)
      · right
        constructor
        · show 1 / (1 + a.1) = 1 / (1 + b.1)
          rw [hq1]
        · show a.2.toNat < b.2.toNat
          rw [ha2] at hq2 ⊢
          rw [hb2] at hq2 ⊢
          simp only [Int.toNat_ofNat]
          exact_mod_cast hq2

/-- Witness for `search_score_ordering`: a concrete two-chunk index. -/
theorem search_score_ordering_witness :
    ∃ rs, (search (fun t => [(t.length : ℚ)])
        ⟨[[1], [2]], ["a", "b"], [[("chunk_text", MVal.str "x")], []]⟩ "qq" 2).1 = some rs ∧
      ∃ idxs : List Nat, idxs.length = rs.length ∧
        (∀ pr ∈ rs.zip idxs,
          pr.2 < (RState.mk [[1], [2]] ["a", "b"]
            [[("chunk_text", MVal.str "x")], []]).doc_ids.length ∧
          0 ≤ sqDist ((fun t : String => [(t.length : ℚ)]) "qq")
            ((RState.mk [[1], [2]] ["a", "b"]
              [[("chunk_text", MVal.str "x")], []]).index.getD pr.2 []) ∧
          pr.1.score = 1 / (1 + sqDist ((fun t : String => [(t.length : ℚ)]) "qq")
            ((RState.mk [[1], [2]] ["a", "b"]
              [[("chunk_text", MVal.str "x")], []]).index.getD pr.2 [])) ∧
          0 < pr.1.score ∧ pr.1.score ≤ 1 ∧
          pr.1.chunk_id = (RState.mk [[1], [2]] ["a", "b"]
            [[("chunk_text", MVal.str "x")], []]).doc_ids.getD pr.2 "") ∧
        (rs.zip idxs).Pairwise
          (fun a b => b.1.score < a.1.score ∨ (a.1.score = b.1.score ∧ a.2 < b.2)) :=
  search_score_ordering (fun t => [(t.length : ℚ)])
    ⟨[[1], [2]], ["a", "b"], [[("chunk_text", MVal.str "x")], []]⟩ "qq" 2 ⟨rfl, rfl⟩

lemma dictPop_get (m : Meta) (k : String) : dictGet (dictPop m k) k = none := by
  unfold dictGet dictPop
  rw [Option.map_eq_none', List.find?_eq_none]
  intro p hp
  rw [List.mem_filter] at hp
  simp only [bne_iff_ne, ne_eq] at hp
  simp [hp.2]

lemma searchHits_mem (s : RState) :
    ∀ hits rs, searchHits s hits = some rs → ∀ r ∈ rs,
      ∃ i, i < s.metadata.length ∧
        r.metadata = dictPop (s.metadata.getD i []) "chunk_text" ∧
        r.text = (dictGet (s.metadata.getD i []) "chunk_text").getD (MVal.str "") ∧
        r.chunk_id = s.doc_ids.getD i "" := by
  intro hits
  induction hits with
  | nil =>
    intro rs h r hr
    simp only [searchHits, Option.some.injEq] at h
    subst h
    cases hr
  | cons di rest ih =>
    intro rs h r hr
    obtain ⟨d, idx⟩ := di
    by_cases hne : idx = -1
    · subst hne
      simp only [searchHits, if_pos rfl] at h
      exact ih rs h r hr
    · simp only [searchHits, hne, if_false] at h
      cases hm : s.metadata.get? idx.toNat with
      | none =>
        rw [hm] at h
        cases hd : s.doc_ids.get? idx.toNat <;> rw [hd] at h <;> cases h
      | some m =>
        cases hd : s.doc_ids.get? idx.toNat with
        | none =>
          rw [hm, hd] at h
          cases h
        | some cid =>
          rw [hm, hd] at h
          rw [Option.map_eq_some'] at h
          obtain ⟨rs', hrs', hcons⟩ := h
          subst hcons
          rcases List.mem_cons.mp hr with hr1 | hr2
          · obtain ⟨hlt, hget⟩ := List.get?_eq_some.mp hm
            have hgetD : s.metadata.getD idx.toNat [] = m := by
              rw [List.getD_eq_getElem?_getD, ← List.get?_eq_getElem?, hm]
              rfl
            have hgetDd : s.doc_ids.getD idx.toNat "" = cid := by
              rw [List.getD_eq_getElem?_getD, ← List.get?_eq_getElem?, hd]
              rfl
            refine ⟨idx.toNat, hlt, ?_, ?_, ?_⟩
            · rw [hr1, hgetD]
            · rw [hr1, hgetD]
            · rw [hr1, hgetDd]
          · exact ih rs' hrs' r hr2

/-- C10: `Retriever.search` is read-only: the retriever state after any
search call is unchanged (the FAISS structure, `doc_ids` and `metadata` are
identical), repeating the search yields the same output, and every returned
result's metadata has `chunk_text` popped from a fresh copy — the result's
metadata lacks the key while the stored entry it was copied from (some
position `i`) retains it, its value being exactly the result's `text`
field. -/
theorem search_readonly (embed : String → Vec) (s : RState) (q : String) (k : Nat) :
    (search embed s q k).2 = s ∧
    (search embed (search embed s q k).2 q k).1 = (search embed s q k).1 ∧
    (∀ rs, (search embed s q k).1 = some rs →
      ∀ r ∈ rs, dictGet r.metadata "chunk_text" = none ∧
        ∃ i, i < s.metadata.length ∧
          r.metadata = dictPop (s.metadata.getD i []) "chunk_text" ∧
          r.text = (dictGet (s.metadata.getD i []) "chunk_text").getD (MVal.str "") ∧
          r.chunk_id = s.doc_ids.getD i "") := by
  have hframe : (search embed s q k).2 = s := by
    unfold search
    split <;> rfl
  refine ⟨hframe, by rw [hframe], ?_⟩
  intro rs hrs r hr
  have hsh : ∃ hits, searchHits s hits = some rs ∨ rs = [] := by
    unfold search at hrs
    by_cases he : s.doc_ids = []
    · simp only [he, if_pos rfl] at hrs
      refine ⟨[], Or.inr ?_⟩
      simpa using hrs.symm
    · simp only [he, if_neg he] at hrs
      exact ⟨_, Or.inl hrs⟩
  obtain ⟨hits, hcase⟩ := hsh
  rcases hcase with hsome | hnil
  · obtain ⟨i, hlt, hmeta, htext, hid⟩ := searchHits_mem s hits rs hsome r hr
    refine ⟨?_, i, hlt, hmeta, htext, hid⟩
    rw [hmeta]
    exact dictPop_get _ _
  · subst hnil
    cases hr

/-- Witness for `search_readonly`: a concrete one-chunk index. -/
theorem search_readonly_witness :
    (search (fun _ => ([0] : Vec))
      ⟨[[1]], ["a"], [[("chunk_text", MVal.str "x")]]⟩ "q" 1).2 =
      ⟨[[1]], ["a"], [[("chunk_text", MVal.str "x")]]⟩ ∧
    (search (fun _ => ([0] : Vec))
      (search (fun _ => ([0] : Vec))
        ⟨[[1]], ["a"], [[("chunk_text", MVal.str "x")]]⟩ "q" 1).2 "q" 1).1 =
      (search (fun _ => ([0] : Vec))
        ⟨[[1]], ["a"], [[("chunk_text", MVal.str "x")]]⟩ "q" 1).1 ∧
    (∀ rs, (search (fun _ => ([0] : Vec))
        ⟨[[1]], ["a"], [[("chunk_text", MVal.str "x")]]⟩ "q" 1).1 = some rs →
      ∀ r ∈ rs, dictGet r.metadata "chunk_text" = none ∧
        ∃ i, i < (RState.mk [[1]] ["a"] [[("chunk_text", MVal.str "x")]]).metadata.length ∧
          r.metadata = dictPop ((RState.mk [[1]] ["a"]
            [[("chunk_text", MVal.str "x")]]).metadata.getD i []) "chunk_text" ∧
          r.text = (dictGet ((RState.mk [[1]] ["a"]
            [[("chunk_text", MVal.str "x")]]).metadata.getD i []) "chunk_text").getD
            (MVal.str "") ∧
          r.chunk_id = (RState.mk [[1]] ["a"]
            [[("chunk_text", MVal.str "x")]]).doc_ids.getD i "") :=
  search_readonly (fun _ => ([0] : Vec))
    ⟨[[1]], ["a"], [[("chunk_text", MVal.str "x")]]⟩ "q" 1

/-- C8: evaluation of the code at the failing input.  Searching the topic
`"Mercury"` yields the single title `"Mercury"`, whose page lookup raises a
`DisambiguationError` suggesting `"Mercury (planet)"`; processing the
suggested alternative directly would succeed (second conjunct), so the
claimed one-shot retry would return its document — but
`ingest_from_wikipedia` returns the empty list: the disambiguation condition
is swallowed by the catch-all `except Exception` inside
`process_wikipedia_article`, leaving the retry handler in
`ingest_from_wikipedia` unreachable. -/
theorem ingest_wikipedia_no_retry :
    ingest_from_wikipedia
      (fun t => if t = "Mercury" then WikiPage.disambig ["Mercury (planet)"]
        else if t = "Mercury (planet)" then WikiPage.page "content" "url"
        else WikiPage.failPage)
      (fun _ => ["Mercury"]) (fun _ => 0) 0 "Mercury" = [] ∧
    process_wikipedia_article
      (fun t => if t = "Mercury" then WikiPage.disambig ["Mercury (planet)"]
        else if t = "Mercury (planet)" then WikiPage.page "content" "url"
        else WikiPage.failPage)
      (fun _ => 0) 0 "Mercury (planet)" =
      some "data/processed/wiki_0_0.json" :=
  ⟨by decide, by decide⟩

/-- C9: evaluation of the `/query` handler at the failing input.  An empty
query string against a non-empty vector store is not rejected: the handler
has no check on `q`, so it embeds the empty string and returns a 200
success response (first conjunct) — while the repository's own test
(`test_query_endpoint_empty_query`) and the claim require a 400 before any
embedding.  A query against an empty store does return the distinct 400
`"Vector store is empty"` (second conjunct), and the success and
client-error outcomes are distinct constructors of the response type. -/
theorem api_query_empty_q_not_rejected :
    (∃ rs, api_query (fun s => [(s.length : ℚ)])
      ⟨[[1]], ["c1"], [[]]⟩ "" 5 = ApiResponse.ok rs 1) ∧
    api_query (fun s => [(s.length : ℚ)]) ⟨[], [], []⟩ "hello" 5 =
      ApiResponse.clientError "Vector store is empty" :=
  ⟨⟨_, rfl⟩, rfl⟩
